import Mathlib

/-
Verification of the kern-feature writer (scripts/lib/fontbuild/kerning.py).

The embedding models the kerning store as an association list from glyph
pairs to integer values (the Python store returns None for absent pairs,
supports removal and left/right sweeps), the class registry as lists of
(name, members) in registration order plus a size dictionary, and the
rendering pass as a function producing a list of items (kerning rules and
subtable boundaries) together with the running rule counter.
-/

namespace Roboto

/-- Entries of the kerning store: a (left glyph, right glyph) pair mapped to
an integer kerning value. -/
abbrev Store := List ((String × String) × Int)

/-- A rule bucket: pair of identifiers (glyph or class names) to value. -/
abbrev Bucket := List ((String × String) × Int)

/-- The keys of an association list. -/
def keysOf {κ ν : Type} (m : List (κ × ν)) : List κ := m.map Prod.fst

/-- Point lookup, kerning[pair]: absent pairs give none (Python None). -/
def storeLookup (s : Store) (p : String × String) : Option Int :=
  (s.find? (fun e => decide (e.1 = p))).map Prod.snd

/-- kerning.remove(pair): delete the entry with that pair key. -/
def removeK (s : Store) (p : String × String) : Store :=
  s.filter (fun e => decide (e.1 ≠ p))

/-- kerning.getLeft(g): all entries whose left glyph is g. -/
def getLeft (s : Store) (g : String) : Store :=
  s.filter (fun e => decide (e.1.1 = g))

/-- kerning.getRight(g): all entries whose right glyph is g. -/
def getRight (s : Store) (g : String) : Store :=
  s.filter (fun e => decide (e.1.2 = g))

/-- Dictionary assignment m[k] = v: replace in place when the key is
present, append otherwise. -/
def dupd {κ ν : Type} [DecidableEq κ] (m : List (κ × ν)) (k : κ) (v : ν) :
    List (κ × ν) :=
  if m.any (fun e => decide (e.1 = k)) then
    m.map (fun e => if e.1 = k then (k, v) else e)
  else m ++ [(k, v)]

/-- name.startswith(p): the characters of p are a prefix of those of s. -/
def strStarts (s p : String) : Bool := p.data.isPrefixOf s.data

/-- name.endswith(p): the characters of p are a suffix of those of s. -/
def strEnds (s p : String) : Bool := p.data.isSuffixOf s.data

/-- The writer state: the font kerning store, the left and right class
lists in registration order, and the class-size dictionary. -/
structure Writer where
  kerning : Store
  leftClasses : List (String × List String)
  rightClasses : List (String × List String)
  classSizes : List (String × Nat)
deriving DecidableEq

/-- classDefinition(name, contents): keep only names starting with the
marker prefix; a name ending in the left suffix joins the left list, else
one ending in the right suffix joins the right list; every retained name
gets size[name] = len(contents). -/
def classDefinition (w : Writer) (name : String) (contents : List String) :
    Writer :=
  if ¬ strStarts name "@_" then w
  else if strEnds name "_L" then
    Writer.mk w.kerning (w.leftClasses ++ [(name, contents)]) w.rightClasses
      (dupd w.classSizes name contents.length)
  else if strEnds name "_R" then
    Writer.mk w.kerning w.leftClasses (w.rightClasses ++ [(name, contents)])
      (dupd w.classSizes name contents.length)
  else
    Writer.mk w.kerning w.leftClasses w.rightClasses
      (dupd w.classSizes name contents.length)

/-- Inner loop of write() step 1a: for each right class, look up the pair
(leftKey, rightKey); when present, record it in the class-pair bucket and
remove it from the store; when absent, skip. -/
def collectClassPairs (leftName : String) (leftKey : String)
    (rcs : List (String × List String)) (store : Store) (cpk : Bucket) :
    Store × Bucket :=
  match rcs with
  | [] => (store, cpk)
  | (rightName, rightContents) :: rest =>
    let rightKey := rightContents.headD ""
    let pair := (leftKey, rightKey)
    match storeLookup store pair with
    | none => collectClassPairs leftName leftKey rest store cpk
    | some v =>
        collectClassPairs leftName leftKey rest (removeK store pair)
          (dupd cpk (leftName, rightName) v)

/-- Step 1b: sweep all remaining store entries whose left glyph is the left
key into the left-class bucket, removing each from the store. -/
def sweepLeft (leftName : String) (leftKey : String) (store : Store)
    (lck : Bucket) : Store × Bucket :=
  let snap := getLeft store leftKey
  (snap.foldl (fun acc e => removeK acc e.1) store,
   snap.foldl (fun acc e => dupd acc (leftName, e.1.2) e.2) lck)

/-- Step 1: loop over left classes, collecting class-pair rules then the
left-class sweep for each. -/
def collectLeft (lcs : List (String × List String))
    (rcs : List (String × List String)) (store : Store) (lck cpk : Bucket) :
    Store × Bucket × Bucket :=
  match lcs with
  | [] => (store, lck, cpk)
  | (leftName, leftContents) :: rest =>
    let leftKey := leftContents.headD ""
    let p1 := collectClassPairs leftName leftKey rcs store cpk
    let p2 := sweepLeft leftName leftKey p1.1 lck
    collectLeft rest rcs p2.1 p2.2 p1.2

/-- Step 2 body: sweep all store entries whose right glyph is the right key
into the right-class bucket, removing each from the store. -/
def sweepRight (rightName : String) (rightKey : String) (store : Store)
    (rck : Bucket) : Store × Bucket :=
  let snap := getRight store rightKey
  (snap.foldl (fun acc e => removeK acc e.1) store,
   snap.foldl (fun acc e => dupd acc (e.1.1, rightName) e.2) rck)

/-- Step 2: loop over right classes. -/
def collectRightClasses (rcs : List (String × List String)) (store : Store)
    (rck : Bucket) : Store × Bucket :=
  match rcs with
  | [] => (store, rck)
  | (rightName, rightContents) :: rest =>
    let p := sweepRight rightName (rightContents.headD "") store rck
    collectRightClasses rest p.1 p.2

/-- Result of the classification phase of write(). -/
structure Classified where
  store : Store
  lck : Bucket
  rck : Bucket
  cpk : Bucket
deriving DecidableEq

/-- The classification phase of write(): class-pair collection and left
sweeps per left class, then right sweeps per right class; whatever remains
in the store is glyph-glyph kerning. -/
def classify (w : Writer) : Classified :=
  let p1 := collectLeft w.leftClasses w.rightClasses w.kerning [] []
  let p2 := collectRightClasses w.rightClasses p1.1 []
  Classified.mk p2.1 p1.2.1 p2.2 p1.2.2

/-- One output line of the rendering phase: a subtable boundary directive
or a kerning rule (with its enum flag, identifiers and value). -/
inductive Item where
  | subtable : Item
  | rule (enum : Bool) (left right : String) (val : Int) : Item
deriving DecidableEq

/-- The text of one line, exactly as _writeKerning formats it. -/
def renderItem : Item → String
  | Item.subtable => "    subtable;"
  | Item.rule e l r v =>
      "    " ++ (if e then "enum " else "") ++ "pos " ++ l ++ " " ++ r ++
        " " ++ toString v ++ ";"

/-- classSizes.get(name, 1): registered class size, defaulting to 1. -/
def classSize (cs : List (String × Nat)) (n : String) : Nat :=
  ((cs.find? (fun e => decide (e.1 = n))).map Prod.snd).getD 1

/-- The weight a rule adds to the rule counter: size(left)*size(right) for
an enum rule, 1 otherwise. -/
def ruleWeight (cs : List (String × Nat)) (enum : Bool) (l r : String) :
    Nat :=
  if enum then classSize cs l * classSize cs r else 1

/-- The loop body of _writeKerning: for each entry add its weight to the
running counter; when the counter passes 2048, emit a subtable boundary
before the rule and reset the counter to the weight of that rule. -/
def renderGo (cs : List (String × Nat)) (enum : Bool) :
    Bucket → Nat → List Item × Nat
  | [], rc => ([], rc)
  | ((l, r), v) :: rest, rc =>
    let w := ruleWeight cs enum l r
    let rc2 := rc + w
    if rc2 > 2048 then
      let p := renderGo cs enum rest w
      (Item.subtable :: Item.rule enum l r v :: p.1, p.2)
    else
      let p := renderGo cs enum rest rc2
      (Item.rule enum l r v :: p.1, p.2)

/-- Lexicographic comparison of integer lists (true when the first list is
less than or equal to the second, a shorter list preceding its
extensions). -/
def intListLe : List Int → List Int → Bool
  | [], _ => true
  | _ :: _, [] => false
  | a :: as, b :: bs =>
    if a < b then true else if b < a then false else intListLe as bs

/-- The character codes of a string, as integers. -/
def strCodes (s : String) : List Int := s.data.map (fun c => (c.toNat : Int))

/-- The sort key of a bucket entry: Python sorts the ((left, right), value)
tuples lexicographically, strings byte-wise. The strings are flattened
with a separator below every character code, so that lexicographic
comparison of the flattened keys agrees with the tuple comparison. -/
def ekey (e : (String × String) × Int) : List Int :=
  strCodes e.1.1 ++ [-1] ++ strCodes e.1.2 ++ [-1, e.2]

/-- The comparison used to sort a bucket before rendering. -/
def entryLe (a b : (String × String) × Int) : Prop :=
  intListLe (ekey a) (ekey b) = true

instance : DecidableRel entryLe := fun a b =>
  inferInstanceAs (Decidable (intListLe (ekey a) (ekey b) = true))

instance : IsTotal ((String × String) × Int) entryLe := by
  constructor
  intro a b
  have H : ∀ (x y : List Int), intListLe x y = true ∨ intListLe y x = true := by
    intro x
    induction x with
    | nil => intro y; left; rfl
    | cons c cs ih =>
      intro y
      cases y with
      | nil => right; rfl
      | cons d ds =>
        rcases lt_trichotomy c d with h | h | h
        · left; simp [intListLe, h]
        · subst h
          rcases ih ds with h2 | h2
          · left; simp [intListLe, lt_irrefl, h2]
          · right; simp [intListLe, lt_irrefl, h2]
        · right; simp [intListLe, h]
  exact H (ekey a) (ekey b)

instance : IsTrans ((String × String) × Int) entryLe := by
  constructor
  intro a b c hab hbc
  have H : ∀ (x y z : List Int), intListLe x y = true →
      intListLe y z = true → intListLe x z = true := by
    intro x
    induction x with
    | nil => intro y z _ _; rfl
    | cons u us ih =>
      intro y z hab2 hbc2
      cases y with
      | nil => simp [intListLe] at hab2
      | cons p ps =>
        cases z with
        | nil => simp [intListLe] at hbc2
        | cons q qs =>
          simp only [intListLe] at hab2 hbc2 ⊢
          by_cases hup : u < p
          · by_cases hpq : p < q
            · simp [lt_trans hup hpq]
            · by_cases hqp : q < p
              · simp [intListLe, hpq, hqp] at hbc2
              · have hpq2 : p = q :=
                  le_antisymm (not_lt.mp hqp) (not_lt.mp hpq)
                subst hpq2
                simp [hup]
          · by_cases hpu : p < u
            · simp [intListLe, hup, hpu] at hab2
            · have hup2 : u = p :=
                le_antisymm (not_lt.mp hpu) (not_lt.mp hup)
              subst hup2
              simp only [if_neg (lt_irrefl u)] at hab2
              by_cases huq : u < q
              · simp [huq]
              · by_cases hqu : q < u
                · simp [intListLe, huq, hqu] at hbc2
                · have huq2 : u = q :=
                    le_antisymm (not_lt.mp hqu) (not_lt.mp huq)
                  subst huq2
                  simp only [if_neg (lt_irrefl u)] at hab2 hbc2 ⊢
                  exact ih ps qs hab2 hbc2
  exact H (ekey a) (ekey b) (ekey c) hab hbc

/-- pairs.sort(): sort the bucket entries. -/
def sortEntries (b : Bucket) : Bucket := b.insertionSort entryLe

/-- _writeKerning as items: sort, then render with the running counter. -/
def writeKerningItems (cs : List (String × Nat)) (b : Bucket) (enum : Bool)
    (rc : Nat) : List Item × Nat :=
  renderGo cs enum (sortEntries b) rc

/-- Everything write() computes: the four buckets rendered in order
(glyph-glyph, left-class, right-class, class-pair) threading one rule
counter initialised to 0, the store left after classification, and the
final counter. -/
structure WriteResult where
  items1 : List Item
  items2 : List Item
  items3 : List Item
  items4 : List Item
  storeAfter : Store
  finalCount : Nat
deriving DecidableEq

/-- The body of write(): classification, then the four rendering calls.
The glyph-glyph bucket is the remaining store rendered without enum, the
left-class and right-class buckets are rendered with enum, and the
class-pair bucket is rendered by a call passing no enum flag (so without
enum). -/
def writeParts (w : Writer) : WriteResult :=
  let c := classify w
  let p1 := writeKerningItems w.classSizes c.store false 0
  let p2 := writeKerningItems w.classSizes c.lck true p1.2
  let p3 := writeKerningItems w.classSizes c.rck true p2.2
  let p4 := writeKerningItems w.classSizes c.cpk false p3.2
  WriteResult.mk p1.1 p2.1 p3.1 p4.1 c.store p4.2

/-- write(linesep): the feature block header, the four bucket renderings,
and the footer, joined with the line separator. -/
def write (w : Writer) (linesep : String) : String :=
  let r := writeParts w
  String.intercalate linesep
    ["feature kern \x7b",
     String.intercalate linesep (r.items1.map renderItem),
     String.intercalate linesep (r.items2.map renderItem),
     String.intercalate linesep (r.items3.map renderItem),
     String.intercalate linesep (r.items4.map renderItem),
     "\x7d kern;"]

/-- The writer after write() returns: the store has been mutated by the
classification phase, the class lists and sizes are untouched. -/
def writeWriter (w : Writer) : Writer :=
  Writer.mk (classify w).store w.leftClasses w.rightClasses w.classSizes

/-- All rendered items of one write call, in output order. -/
def allItems (w : Writer) : List Item :=
  let r := writeParts w
  r.items1 ++ r.items2 ++ r.items3 ++ r.items4

/-- Whether an item is a kerning rule (rather than a boundary). -/
def isRuleItem : Item → Bool
  | Item.subtable => false
  | Item.rule _ _ _ _ => true

/-- The number of kerning-rule lines (not boundaries) in an item list. -/
def posCount (items : List Item) : Nat :=
  items.countP isRuleItem

/-- The number of kerning-rule lines emitted by one write call. -/
def posCountAll (w : Writer) : Nat := posCount (allItems w)

/-- The rule items of a rendering, boundaries dropped, order kept. -/
def rulesOf (items : List Item) : List Item := items.filter isRuleItem

/-- Whether an item is a boundary or a rule carrying the given enum flag. -/
def flagOK (b : Bool) : Item → Bool
  | Item.subtable => true
  | Item.rule e _ _ _ => e == b

/-- Modelled from the spec: one rendering pass over the rules of all four
buckets in output order, each tagged with its enum flag, maintaining a
single rule counter shared across the entire write call; the counter is
first increased by the weight of the rule, and when it then exceeds 2048 a
boundary is emitted immediately before the rule and the counter is reset
to exactly that weight (the boundary itself contributing nothing). -/
def renderAll (cs : List (String × Nat)) :
    List (Bool × ((String × String) × Int)) → Nat → List Item × Nat
  | [], rc => ([], rc)
  | (e, ((l, r), v)) :: rest, rc =>
    let w := ruleWeight cs e l r
    let rc2 := rc + w
    if rc2 > 2048 then
      let p := renderAll cs rest w
      (Item.subtable :: Item.rule e l r v :: p.1, p.2)
    else
      let p := renderAll cs rest rc2
      (Item.rule e l r v :: p.1, p.2)

/-- The rules of all four buckets of one write call, in output order, each
tagged with the enum flag its bucket is rendered under. -/
def flatRules (w : Writer) : List (Bool × ((String × String) × Int)) :=
  (sortEntries (classify w).store).map (fun x => (false, x)) ++
    ((sortEntries (classify w).lck).map (fun x => (true, x)) ++
      ((sortEntries (classify w).rck).map (fun x => (true, x)) ++
        (sortEntries (classify w).cpk).map (fun x => (false, x))))

/-- Splitting an item list into subtable-delimited segments; the
accumulator holds the open segment. -/
def segsGo : List Item → List Item → List (List Item)
  | [], cur => [cur]
  | Item.subtable :: rest, cur => cur :: segsGo rest []
  | it :: rest, cur => segsGo rest (cur ++ [it])

/-- The segments of the output: the runs of rule lines strictly between
consecutive subtable boundaries (and before the first and after the
last). -/
def segments (items : List Item) : List (List Item) := segsGo items []

/-- The weight of an item: a boundary weighs nothing, a rule weighs what
it adds to the rule counter. -/
def itemWeight (cs : List (String × Nat)) : Item → Nat
  | Item.subtable => 0
  | Item.rule e l r _ => ruleWeight cs e l r

/-- The total rule weight of a segment. -/
def segWeight (cs : List (String × Nat)) (seg : List Item) : Nat :=
  (seg.map (itemWeight cs)).sum

/-- A store with two glyph pairs sharing their right glyph, and the same
left class name registered twice with different key glyphs; the external
parser imposes no duplicate detection, so this state is reachable. -/
def dupNameWriter : Writer :=
  classDefinition (classDefinition (classDefinition
    (Writer.mk [(("k1", "r"), 1), (("k2", "r"), 2)] [] [] [])
    "@_A_L" ["k1"]) "@_A_L" ["k2"]) "@_B_R" ["r"]

/-- A one-left-class, one-right-class writer whose key pair is kerned,
plus one plain glyph pair. -/
def wBasic : Writer := classDefinition (classDefinition
  (Writer.mk [(("k", "r"), 5), (("g", "h"), 1)] [] [] [])
  "@_A_L" ["k"]) "@_B_R" ["r"]

/-- A writer producing a single class-pair rule. -/
def classPairWriter : Writer := classDefinition (classDefinition
  (Writer.mk [(("k", "r"), 10)] [] [] []) "@_A_L" ["k"]) "@_B_R" ["r"]

/-- A writer whose two classes have fifty members each. -/
def fiftyWriter : Writer := classDefinition (classDefinition
  (Writer.mk [(("g", "h"), 1), (("k", "r"), 2)] [] [] [])
  "@_A_L" ("k" :: List.replicate 49 "x"))
  "@_B_R" ("r" :: List.replicate 49 "y")

/-- A writer with one left class and one swept pair. -/
def leftClassWriter : Writer :=
  classDefinition (Writer.mk [(("k", "g"), 5)] [] [] []) "@_A_L" ["k", "m"]

/-- A 2049-member left class: its single swept rule alone outweighs the
2048 bound. -/
def bigContents : List String := "k" :: List.replicate 2048 "x"

def bigWriter : Writer :=
  classDefinition (Writer.mk [(("k", "g"), 5)] [] [] []) "@_A_L" bigContents

/-- An empty writer: nothing to consume, so write changes nothing. -/
def emptyWriter : Writer := Writer.mk [] [] [] []

theorem renderGo_nil (cs : List (String × Nat)) (e : Bool) (rc : Nat) :
    renderGo cs e [] rc = ([], rc) := rfl

theorem renderGo_cons (cs : List (String × Nat)) (e : Bool) (l r : String)
    (v : Int) (rest : Bucket) (rc : Nat) :
    renderGo cs e (((l, r), v) :: rest) rc =
      if rc + ruleWeight cs e l r > 2048 then
        ((Item.subtable :: Item.rule e l r v ::
           (renderGo cs e rest (ruleWeight cs e l r)).1),
         (renderGo cs e rest (ruleWeight cs e l r)).2)
      else
        ((Item.rule e l r v :: (renderGo cs e rest (rc + ruleWeight cs e l r)).1),
         (renderGo cs e rest (rc + ruleWeight cs e l r)).2) := rfl

theorem rulesOf_renderGo (cs : List (String × Nat)) (e : Bool) (b : Bucket)
    (rc : Nat) :
    rulesOf (renderGo cs e b rc).1 =
      b.map (fun x => Item.rule e x.1.1 x.1.2 x.2) := by
  induction b generalizing rc with
  | nil => simp [renderGo, rulesOf]
  | cons hd tl ih =>
    obtain ⟨⟨l, r⟩, v⟩ := hd
    rw [renderGo_cons]
    split <;> simp only [rulesOf, List.filter, isRuleItem] at ih ⊢ <;>
      rw [ih] <;> simp

theorem posCount_renderGo (cs : List (String × Nat)) (e : Bool) (b : Bucket)
    (rc : Nat) : posCount (renderGo cs e b rc).1 = b.length := by
  induction b generalizing rc with
  | nil => simp [renderGo, posCount]
  | cons hd tl ih =>
    obtain ⟨⟨l, r⟩, v⟩ := hd
    rw [renderGo_cons]
    split <;> simp [posCount, List.countP_cons, isRuleItem] at ih ⊢ <;>
      exact ih _

theorem flagOK_renderGo (cs : List (String × Nat)) (e : Bool) (b : Bucket)
    (rc : Nat) : ((renderGo cs e b rc).1).all (flagOK e) = true := by
  induction b generalizing rc with
  | nil => simp [renderGo]
  | cons hd tl ih =>
    obtain ⟨⟨l, r⟩, v⟩ := hd
    rw [renderGo_cons]
    split <;> simp [flagOK] at ih ⊢ <;> exact ih _

theorem mem_renderGo (cs : List (String × Nat)) (e : Bool) (b : Bucket)
    (rc : Nat) (it : Item) (h : it ∈ (renderGo cs e b rc).1) :
    it = Item.subtable ∨ ∃ l r v, it = Item.rule e l r v := by
  induction b generalizing rc with
  | nil => simp [renderGo] at h
  | cons hd tl ih =>
    obtain ⟨⟨l, r⟩, v⟩ := hd
    rw [renderGo_cons] at h
    split at h <;> simp only [List.mem_cons] at h
    · rcases h with h | h | h
      · exact Or.inl h
      · exact Or.inr ⟨l, r, v, h⟩
      · exact ih _ h
    · rcases h with h | h
      · exact Or.inr ⟨l, r, v, h⟩
      · exact ih _ h

theorem removeK_sublist (s : Store) (p : String × String) :
    List.Sublist (removeK s p) s := List.filter_sublist s

theorem storeLookup_cons_of_ne (hd : (String × String) × Int) (tl : Store)
    (p : String × String) (hp : ¬ hd.1 = p) :
    storeLookup (hd :: tl) p = storeLookup tl p := by
  simp only [storeLookup]
  rw [List.find?_cons_of_neg]
  simp [hp]

theorem storeLookup_some_mem (s : Store) (p : String × String) (v : Int)
    (h : storeLookup s p = some v) : p ∈ keysOf s := by
  induction s with
  | nil => simp [storeLookup] at h
  | cons hd tl ih =>
    by_cases hp : hd.1 = p
    · simp [keysOf, hp]
    · rw [storeLookup_cons_of_ne hd tl p hp] at h
      simp only [keysOf, List.map_cons, List.mem_cons]
      exact Or.inr (ih h)

theorem storeLookup_not_mem (s : Store) (p : String × String)
    (h : p ∉ keysOf s) : storeLookup s p = none := by
  induction s with
  | nil => rfl
  | cons hd tl ih =>
    simp only [keysOf, List.map_cons, List.mem_cons, not_or] at h
    rw [storeLookup_cons_of_ne hd tl p (fun he => h.1 he.symm)]
    exact ih h.2

theorem removeK_cons_of_ne (hd : (String × String) × Int) (tl : Store)
    (p : String × String) (hp : ¬ hd.1 = p) :
    removeK (hd :: tl) p = hd :: removeK tl p := by
  simp only [removeK]
  rw [List.filter_cons_of_pos]
  simp [hp]

theorem removeK_cons_of_eq (hd : (String × String) × Int) (tl : Store)
    (p : String × String) (hp : hd.1 = p) :
    removeK (hd :: tl) p = removeK tl p := by
  simp only [removeK]
  rw [List.filter_cons_of_neg]
  simp [hp]

theorem removeK_eq_self (s : Store) (p : String × String)
    (h : p ∉ keysOf s) : removeK s p = s := by
  induction s with
  | nil => rfl
  | cons hd tl ih =>
    simp only [keysOf, List.map_cons, List.mem_cons, not_or] at h
    rw [removeK_cons_of_ne hd tl p (fun he => h.1 he.symm)]
    rw [ih h.2]

theorem removeK_length (s : Store) (p : String × String) (v : Int)
    (hn : (keysOf s).Nodup) (h : storeLookup s p = some v) :
    (removeK s p).length + 1 = s.length := by
  induction s with
  | nil => simp [storeLookup] at h
  | cons hd tl ih =>
    simp only [keysOf, List.map_cons, List.nodup_cons] at hn
    by_cases hp : hd.1 = p
    · rw [removeK_cons_of_eq hd tl p hp]
      have hpm : p ∉ keysOf tl := hp ▸ hn.1
      rw [removeK_eq_self tl p hpm]
      simp
    · rw [storeLookup_cons_of_ne hd tl p hp] at h
      rw [removeK_cons_of_ne hd tl p hp]
      have := ih hn.2 h
      simp only [List.length_cons]
      omega

theorem dupd_of_not_mem {κ ν : Type} [DecidableEq κ] (m : List (κ × ν))
    (k : κ) (v : ν) (h : k ∉ keysOf m) : dupd m k v = m ++ [(k, v)] := by
  have hany : m.any (fun e => decide (e.1 = k)) = false := by
    rw [List.any_eq_false]
    intro e he
    simp only [decide_eq_true_eq]
    intro hek
    exact h (hek ▸ List.mem_map_of_mem Prod.fst he)
  simp [dupd, hany]

theorem keysOf_append {κ ν : Type} (a b : List (κ × ν)) :
    keysOf (a ++ b) = keysOf a ++ keysOf b := List.map_append _ a b

/-- Folding fresh dictionary inserts over a list appends one entry per
element: the bucket grows by exactly the length of the list, and its keys
extend by the mapped keys, provided those keys are new and distinct. -/
theorem foldl_dupd_fresh (f : ((String × String) × Int) → String × String)
    (l : List ((String × String) × Int)) (b : Bucket)
    (hnd : (l.map f).Nodup) (hfresh : ∀ e ∈ l, f e ∉ keysOf b) :
    (l.foldl (fun acc e => dupd acc (f e) e.2) b).length =
      b.length + l.length ∧
    keysOf (l.foldl (fun acc e => dupd acc (f e) e.2) b) =
      keysOf b ++ l.map f := by
  induction l generalizing b with
  | nil => simp
  | cons hd tl ih =>
    simp only [List.map_cons, List.nodup_cons] at hnd
    have hf : f hd ∉ keysOf b := hfresh hd (List.mem_cons_self hd tl)
    have hins : dupd b (f hd) hd.2 = b ++ [(f hd, hd.2)] :=
      dupd_of_not_mem b (f hd) hd.2 hf
    simp only [List.foldl_cons, hins]
    have hfresh2 : ∀ e ∈ tl, f e ∉ keysOf (b ++ [(f hd, hd.2)]) := by
      intro e he
      rw [keysOf_append]
      simp only [List.mem_append, not_or]
      refine ⟨hfresh e (List.mem_cons_of_mem hd he), ?_⟩
      simp only [keysOf, List.map_singleton, List.mem_singleton]
      intro hee
      exact hnd.1 (hee ▸ List.mem_map_of_mem f he)
    obtain ⟨ih1, ih2⟩ := ih (b ++ [(f hd, hd.2)]) hnd.2 hfresh2
    constructor
    · rw [ih1]
      simp only [List.length_append, List.length_cons, List.length_nil]
      omega
    · rw [ih2, keysOf_append]
      simp [keysOf]

/-- Removing each key of a list of entries in turn filters out exactly the
entries whose key occurs in that list. -/
theorem foldl_removeK (l : List ((String × String) × Int)) (s : Store) :
    l.foldl (fun acc e => removeK acc e.1) s =
      s.filter (fun x => decide (x.1 ∉ keysOf l)) := by
  induction l generalizing s with
  | nil => simp [keysOf]
  | cons hd tl ih =>
    simp only [List.foldl_cons]
    rw [ih]
    simp only [removeK, List.filter_filter]
    apply List.filter_congr
    intro x _
    simp only [keysOf, List.map_cons, List.mem_cons, Bool.and_comm]
    simp only [decide_not, not_or]
    cases hx1 : decide (x.1 = hd.1) <;> cases hx2 : decide (x.1 ∈ List.map Prod.fst tl) <;>
      simp_all

theorem length_filter_split (s : Store)
    (p : ((String × String) × Int) → Bool) :
    (s.filter p).length + (s.filter (fun e => ! p e)).length = s.length := by
  induction s with
  | nil => rfl
  | cons hd tl ih =>
    cases hp : p hd <;> simp [List.filter_cons, hp] <;> omega

theorem getLeft_fst (s : Store) (g : String) (e : (String × String) × Int)
    (h : e ∈ getLeft s g) : e.1.1 = g := by
  have := (List.mem_filter.mp h).2
  exact of_decide_eq_true this

theorem getRight_snd (s : Store) (g : String) (e : (String × String) × Int)
    (h : e ∈ getRight s g) : e.1.2 = g := by
  have := (List.mem_filter.mp h).2
  exact of_decide_eq_true this

theorem keysOf_nodup_sublist (a b : Store) (h : List.Sublist a b)
    (hb : (keysOf b).Nodup) : (keysOf a).Nodup :=
  List.Nodup.sublist (List.Sublist.map Prod.fst h) hb

/-- Entries with pairwise distinct keys that all share the same left glyph
have pairwise distinct right glyphs, so tagging them with a class name on
the left keeps the keys distinct. -/
theorem nodup_map_left_tag (l : Store) (c ln : String)
    (hnd : (keysOf l).Nodup) (hall : ∀ e ∈ l, e.1.1 = c) :
    (l.map (fun e => ((ln, e.1.2) : String × String))).Nodup := by
  have hl : l.Nodup := List.Nodup.of_map Prod.fst hnd
  refine List.Nodup.map_on ?_ hl
  intro x hx y hy hxy
  have h2 : x.1.2 = y.1.2 := (Prod.ext_iff.mp hxy).2
  have h1 : x.1 = y.1 := by
    have hx1 : x.1.1 = c := hall x hx
    have hy1 : y.1.1 = c := hall y hy
    exact Prod.ext (hx1.trans hy1.symm) h2
  exact List.inj_on_of_nodup_map hnd hx hy h1

theorem nodup_map_right_tag (l : Store) (c rn : String)
    (hnd : (keysOf l).Nodup) (hall : ∀ e ∈ l, e.1.2 = c) :
    (l.map (fun e => ((e.1.1, rn) : String × String))).Nodup := by
  have hl : l.Nodup := List.Nodup.of_map Prod.fst hnd
  refine List.Nodup.map_on ?_ hl
  intro x hx y hy hxy
  have h2 : x.1.1 = y.1.1 := (Prod.ext_iff.mp hxy).1
  have h1 : x.1 = y.1 := by
    have hx1 : x.1.2 = c := hall x hx
    have hy1 : y.1.2 = c := hall y hy
    exact Prod.ext h2 (hx1.trans hy1.symm)
  exact List.inj_on_of_nodup_map hnd hx hy h1

theorem sweepLeft_store (ln lk : String) (store : Store) (lck : Bucket) :
    (sweepLeft ln lk store lck).1 =
      store.filter (fun e => ! decide (e.1.1 = lk)) := by
  show (getLeft store lk).foldl (fun acc e => removeK acc e.1) store = _
  rw [foldl_removeK]
  apply List.filter_congr
  intro x hx
  rw [show (! decide (x.1.1 = lk)) = decide (¬ x.1.1 = lk) from by simp]
  rw [decide_eq_decide]
  constructor
  · intro hnotin hxl
    refine hnotin (List.mem_map_of_mem Prod.fst ?_)
    simp [getLeft, List.mem_filter, hx, hxl]
  · intro hne hin
    obtain ⟨e, he, hek⟩ := List.mem_map.mp hin
    have hefst : e.1.1 = lk := getLeft_fst store lk e he
    exact hne (by rw [← hek, hefst])

theorem sweepRight_store (rn rk : String) (store : Store) (rck : Bucket) :
    (sweepRight rn rk store rck).1 =
      store.filter (fun e => ! decide (e.1.2 = rk)) := by
  show (getRight store rk).foldl (fun acc e => removeK acc e.1) store = _
  rw [foldl_removeK]
  apply List.filter_congr
  intro x hx
  rw [show (! decide (x.1.2 = rk)) = decide (¬ x.1.2 = rk) from by simp]
  rw [decide_eq_decide]
  constructor
  · intro hnotin hxl
    refine hnotin (List.mem_map_of_mem Prod.fst ?_)
    simp [getRight, List.mem_filter, hx, hxl]
  · intro hne hin
    obtain ⟨e, he, hek⟩ := List.mem_map.mp hin
    have hesnd : e.1.2 = rk := getRight_snd store rk e he
    exact hne (by rw [← hek, hesnd])

/-- The left sweep: the store loses exactly the swept entries, the bucket
gains exactly one entry per swept store entry, and the new bucket keys are
tagged with the left class name. -/
theorem sweepLeft_spec (ln lk : String) (store : Store) (lck : Bucket)
    (hnd : (keysOf store).Nodup)
    (hfresh : ∀ k ∈ keysOf lck, k.1 ≠ ln) :
    List.Sublist (sweepLeft ln lk store lck).1 store ∧
    (sweepLeft ln lk store lck).1.length +
      (sweepLeft ln lk store lck).2.length = store.length + lck.length ∧
    keysOf (sweepLeft ln lk store lck).2 =
      keysOf lck ++ (getLeft store lk).map (fun e => (ln, e.1.2)) := by
  have hsnap : (keysOf (getLeft store lk)).Nodup :=
    keysOf_nodup_sublist _ _ (List.filter_sublist store) hnd
  have hallfst : ∀ e ∈ getLeft store lk, e.1.1 = lk := getLeft_fst store lk
  have hmapnd := nodup_map_left_tag (getLeft store lk) lk ln hsnap hallfst
  have hfresh2 : ∀ e ∈ getLeft store lk,
      ((ln, e.1.2) : String × String) ∉ keysOf lck := by
    intro e _ hmem
    exact hfresh _ hmem rfl
  have hbucket := foldl_dupd_fresh (fun e => (ln, e.1.2)) (getLeft store lk)
    lck hmapnd hfresh2
  have hstore := sweepLeft_store ln lk store lck
  refine ⟨hstore ▸ List.filter_sublist store, ?_, hbucket.2⟩
  have hsplit := length_filter_split store (fun e => decide (e.1.1 = lk))
  have hglen : (getLeft store lk).length =
      (store.filter (fun e => decide (e.1.1 = lk))).length := rfl
  have hb1 : (sweepLeft ln lk store lck).2.length =
      lck.length + (getLeft store lk).length := hbucket.1
  rw [hstore]
  omega

/-- The right sweep, symmetrically. -/
theorem sweepRight_spec (rn rk : String) (store : Store) (rck : Bucket)
    (hnd : (keysOf store).Nodup)
    (hfresh : ∀ k ∈ keysOf rck, k.2 ≠ rn) :
    List.Sublist (sweepRight rn rk store rck).1 store ∧
    (sweepRight rn rk store rck).1.length +
      (sweepRight rn rk store rck).2.length = store.length + rck.length ∧
    keysOf (sweepRight rn rk store rck).2 =
      keysOf rck ++ (getRight store rk).map (fun e => (e.1.1, rn)) := by
  have hsnap : (keysOf (getRight store rk)).Nodup :=
    keysOf_nodup_sublist _ _ (List.filter_sublist store) hnd
  have hallsnd : ∀ e ∈ getRight store rk, e.1.2 = rk := getRight_snd store rk
  have hmapnd := nodup_map_right_tag (getRight store rk) rk rn hsnap hallsnd
  have hfresh2 : ∀ e ∈ getRight store rk,
      ((e.1.1, rn) : String × String) ∉ keysOf rck := by
    intro e _ hmem
    exact hfresh _ hmem rfl
  have hbucket := foldl_dupd_fresh (fun e => (e.1.1, rn)) (getRight store rk)
    rck hmapnd hfresh2
  have hstore := sweepRight_store rn rk store rck
  refine ⟨hstore ▸ List.filter_sublist store, ?_, hbucket.2⟩
  have hsplit := length_filter_split store (fun e => decide (e.1.2 = rk))
  have hglen : (getRight store rk).length =
      (store.filter (fun e => decide (e.1.2 = rk))).length := rfl
  have hb1 : (sweepRight rn rk store rck).2.length =
      rck.length + (getRight store rk).length := hbucket.1
  rw [hstore]
  omega

/-- The class-pair collection loop: the store only shrinks, each recorded
pair moves exactly one entry from the store into the bucket, and every new
bucket key carries the current left class name. -/
theorem collectClassPairs_spec (leftName leftKey : String)
    (rcs : List (String × List String)) :
    ∀ (store : Store) (cpk : Bucket),
    (keysOf store).Nodup →
    (rcs.map Prod.fst).Nodup →
    (∀ rn ∈ rcs.map Prod.fst, ((leftName, rn) : String × String) ∉ keysOf cpk) →
    List.Sublist (collectClassPairs leftName leftKey rcs store cpk).1 store ∧
    (collectClassPairs leftName leftKey rcs store cpk).1.length +
      (collectClassPairs leftName leftKey rcs store cpk).2.length =
      store.length + cpk.length ∧
    (∀ k ∈ keysOf (collectClassPairs leftName leftKey rcs store cpk).2,
      k.1 = leftName ∨ k ∈ keysOf cpk) := by
  induction rcs with
  | nil =>
    intro store cpk _ _ _
    exact ⟨List.Sublist.refl store, rfl, fun k hk => Or.inr hk⟩
  | cons hd rest ih =>
    intro store cpk hnd hnames hfresh
    obtain ⟨rightName, rightContents⟩ := hd
    simp only [List.map_cons, List.nodup_cons] at hnames
    cases hlook : storeLookup store (leftKey, rightContents.headD "") with
    | none =>
      have heq : collectClassPairs leftName leftKey
          ((rightName, rightContents) :: rest) store cpk =
          collectClassPairs leftName leftKey rest store cpk := by
        simp only [collectClassPairs, hlook]
      rw [heq]
      refine ih store cpk hnd hnames.2 ?_
      intro rn hrn
      exact hfresh rn (List.mem_cons_of_mem _ hrn)
    | some v =>
      have heq : collectClassPairs leftName leftKey
          ((rightName, rightContents) :: rest) store cpk =
          collectClassPairs leftName leftKey rest
            (removeK store (leftKey, rightContents.headD ""))
            (dupd cpk (leftName, rightName) v) := by
        simp only [collectClassPairs, hlook]
      rw [heq]
      have hfreshhd : ((leftName, rightName) : String × String) ∉ keysOf cpk :=
        hfresh rightName (List.mem_cons_self _ _)
      have hins : dupd cpk (leftName, rightName) v =
          cpk ++ [((leftName, rightName), v)] :=
        dupd_of_not_mem cpk (leftName, rightName) v hfreshhd
      have hnd2 : (keysOf (removeK store (leftKey, rightContents.headD ""))).Nodup :=
        keysOf_nodup_sublist _ _ (removeK_sublist store _) hnd
      have hfresh2 : ∀ rn ∈ rest.map Prod.fst,
          ((leftName, rn) : String × String) ∉
            keysOf (dupd cpk (leftName, rightName) v) := by
        intro rn hrn
        rw [hins, keysOf_append]
        simp only [List.mem_append, not_or]
        refine ⟨hfresh rn (List.mem_cons_of_mem _ hrn), ?_⟩
        simp only [keysOf, List.map_cons, List.map_nil, List.mem_singleton]
        intro hpair
        have : rn = rightName := congrArg Prod.snd hpair
        exact hnames.1 (this ▸ hrn)
      obtain ⟨ihs, ihlen, ihkeys⟩ := ih _ _ hnd2 hnames.2 hfresh2
      refine ⟨ihs.trans (removeK_sublist store _), ?_, ?_⟩
      · have hrem := removeK_length store _ v hnd hlook
        have hlen2 : (dupd cpk (leftName, rightName) v).length =
            cpk.length + 1 := by
          rw [hins]; simp
        omega
      · intro k hk
        rcases ihkeys k hk with h | h
        · exact Or.inl h
        · rw [hins, keysOf_append] at h
          rcases List.mem_append.mp h with h2 | h2
          · exact Or.inr h2
          · simp only [keysOf, List.map_cons, List.map_nil,
              List.mem_singleton] at h2
            exact Or.inl (congrArg Prod.fst h2)

theorem collectLeft_cons (ln : String) (lcont : List String)
    (rest rcs : List (String × List String)) (store : Store)
    (lck cpk : Bucket) :
    collectLeft ((ln, lcont) :: rest) rcs store lck cpk =
      collectLeft rest rcs
        (sweepLeft ln (lcont.headD "")
          (collectClassPairs ln (lcont.headD "") rcs store cpk).1 lck).1
        (sweepLeft ln (lcont.headD "")
          (collectClassPairs ln (lcont.headD "") rcs store cpk).1 lck).2
        (collectClassPairs ln (lcont.headD "") rcs store cpk).2 := rfl

/-- The left-class phase: the store only shrinks, the total number of
entries across the store and the two buckets it fills is preserved, and
every new bucket key is tagged with one of the processed left class
names. -/
theorem collectLeft_spec (rcs : List (String × List String))
    (lcs : List (String × List String)) :
    ∀ (store : Store) (lck cpk : Bucket),
    (keysOf store).Nodup →
    (lcs.map Prod.fst).Nodup →
    (rcs.map Prod.fst).Nodup →
    (∀ k ∈ keysOf cpk, k.1 ∉ lcs.map Prod.fst) →
    (∀ k ∈ keysOf lck, k.1 ∉ lcs.map Prod.fst) →
    List.Sublist (collectLeft lcs rcs store lck cpk).1 store ∧
    ((collectLeft lcs rcs store lck cpk).1.length +
      (collectLeft lcs rcs store lck cpk).2.1.length +
      (collectLeft lcs rcs store lck cpk).2.2.length =
      store.length + lck.length + cpk.length) ∧
    (∀ k ∈ keysOf (collectLeft lcs rcs store lck cpk).2.1,
       k.1 ∈ lcs.map Prod.fst ∨ k ∈ keysOf lck) ∧
    (∀ k ∈ keysOf (collectLeft lcs rcs store lck cpk).2.2,
       k.1 ∈ lcs.map Prod.fst ∨ k ∈ keysOf cpk) := by
  induction lcs with
  | nil =>
    intro store lck cpk _ _ _ _ _
    exact ⟨List.Sublist.refl store, rfl, fun k hk => Or.inr hk,
      fun k hk => Or.inr hk⟩
  | cons hd rest ih =>
    intro store lck cpk hnd hlnames hrnames hcpk hlck
    obtain ⟨ln, lcont⟩ := hd
    simp only [List.map_cons, List.nodup_cons] at hlnames
    have hlnmem : ln ∈ (((ln, lcont) :: rest).map Prod.fst) := by
      simp
    have hcpfresh : ∀ rn ∈ rcs.map Prod.fst,
        ((ln, rn) : String × String) ∉ keysOf cpk := by
      intro rn _ hmem
      exact hcpk _ hmem hlnmem
    obtain ⟨cp_sub, cp_len, cp_keys⟩ :=
      collectClassPairs_spec ln (lcont.headD "") rcs store cpk hnd hrnames
        hcpfresh
    set p1 := collectClassPairs ln (lcont.headD "") rcs store cpk with hp1
    have hnd1 : (keysOf p1.1).Nodup := keysOf_nodup_sublist _ _ cp_sub hnd
    have hlckfresh : ∀ k ∈ keysOf lck, k.1 ≠ ln := by
      intro k hmem he
      exact hlck k hmem (he ▸ hlnmem)
    obtain ⟨sw_sub, sw_len, sw_keys⟩ :=
      sweepLeft_spec ln (lcont.headD "") p1.1 lck hnd1 hlckfresh
    set p2 := sweepLeft ln (lcont.headD "") p1.1 lck with hp2
    have hnd2 : (keysOf p2.1).Nodup := keysOf_nodup_sublist _ _ sw_sub hnd1
    have hcpk2 : ∀ k ∈ keysOf p1.2, k.1 ∉ rest.map Prod.fst := by
      intro k hk hmem
      rcases cp_keys k hk with h | h
      · exact hlnames.1 (h ▸ hmem)
      · exact hcpk k h (List.mem_cons_of_mem _ hmem)
    have hlck2 : ∀ k ∈ keysOf p2.2, k.1 ∉ rest.map Prod.fst := by
      intro k hk hmem
      rw [sw_keys] at hk
      rcases List.mem_append.mp hk with h | h
      · exact hlck k h (List.mem_cons_of_mem _ hmem)
      · obtain ⟨e, _, hek⟩ := List.mem_map.mp h
        have : k.1 = ln := by rw [← hek]
        exact hlnames.1 (this ▸ hmem)
    obtain ⟨r_sub, r_len, r_lkeys, r_ckeys⟩ :=
      ih p2.1 p2.2 p1.2 hnd2 hlnames.2 hrnames hcpk2 hlck2
    rw [collectLeft_cons, ← hp1, ← hp2]
    refine ⟨r_sub.trans (sw_sub.trans cp_sub), ?_, ?_, ?_⟩
    · have hswk : p2.2.length = lck.length + (getLeft p1.1 (lcont.headD "")).length := by
        have := congrArg List.length sw_keys
        simp only [keysOf, List.length_map, List.length_append] at this
        exact this
      omega
    · intro k hk
      rcases r_lkeys k hk with h | h
      · exact Or.inl (List.mem_cons_of_mem _ h)
      · rw [sw_keys] at h
        rcases List.mem_append.mp h with h2 | h2
        · exact Or.inr h2
        · obtain ⟨e, _, hek⟩ := List.mem_map.mp h2
          have : k.1 = ln := by rw [← hek]
          exact Or.inl (by simp [this])
    · intro k hk
      rcases r_ckeys k hk with h | h
      · exact Or.inl (List.mem_cons_of_mem _ h)
      · rcases cp_keys k h with h2 | h2
        · exact Or.inl (by simp [h2])
        · exact Or.inr h2

theorem collectRightClasses_cons (rn : String) (rcont : List String)
    (rest : List (String × List String)) (store : Store) (rck : Bucket) :
    collectRightClasses ((rn, rcont) :: rest) store rck =
      collectRightClasses rest (sweepRight rn (rcont.headD "") store rck).1
        (sweepRight rn (rcont.headD "") store rck).2 := rfl

/-- The right-class phase: the store only shrinks, entries are conserved,
and every new bucket key is tagged with one of the right class names. -/
theorem collectRightClasses_spec (rcs : List (String × List String)) :
    ∀ (store : Store) (rck : Bucket),
    (keysOf store).Nodup →
    (rcs.map Prod.fst).Nodup →
    (∀ k ∈ keysOf rck, k.2 ∉ rcs.map Prod.fst) →
    List.Sublist (collectRightClasses rcs store rck).1 store ∧
    ((collectRightClasses rcs store rck).1.length +
      (collectRightClasses rcs store rck).2.length =
      store.length + rck.length) := by
  induction rcs with
  | nil =>
    intro store rck _ _ _
    exact ⟨List.Sublist.refl store, rfl⟩
  | cons hd rest ih =>
    intro store rck hnd hrnames hrck
    obtain ⟨rn, rcont⟩ := hd
    simp only [List.map_cons, List.nodup_cons] at hrnames
    have hrnmem : rn ∈ (((rn, rcont) :: rest).map Prod.fst) := by simp
    have hfresh : ∀ k ∈ keysOf rck, k.2 ≠ rn := by
      intro k hmem he
      exact hrck k hmem (he ▸ hrnmem)
    obtain ⟨sw_sub, sw_len, sw_keys⟩ :=
      sweepRight_spec rn (rcont.headD "") store rck hnd hfresh
    set p := sweepRight rn (rcont.headD "") store rck with hp
    have hnd2 : (keysOf p.1).Nodup := keysOf_nodup_sublist _ _ sw_sub hnd
    have hrck2 : ∀ k ∈ keysOf p.2, k.2 ∉ rest.map Prod.fst := by
      intro k hk hmem
      rw [sw_keys] at hk
      rcases List.mem_append.mp hk with h | h
      · exact hrck k h (List.mem_cons_of_mem _ hmem)
      · obtain ⟨e, _, hek⟩ := List.mem_map.mp h
        have : k.2 = rn := by rw [← hek]
        exact hrnames.1 (this ▸ hmem)
    obtain ⟨r_sub, r_len⟩ := ih p.1 p.2 hnd2 hrnames.2 hrck2
    rw [collectRightClasses_cons, ← hp]
    exact ⟨r_sub.trans sw_sub, by omega⟩

theorem collectClassPairs_sublist (ln lk : String)
    (rcs : List (String × List String)) :
    ∀ (store : Store) (cpk : Bucket),
    List.Sublist (collectClassPairs ln lk rcs store cpk).1 store := by
  induction rcs with
  | nil => intro store _; exact List.Sublist.refl store
  | cons hd rest ih =>
    intro store cpk
    obtain ⟨rn, rcont⟩ := hd
    cases hlook : storeLookup store (lk, rcont.headD "") with
    | none =>
      simp only [collectClassPairs, hlook]
      exact ih store cpk
    | some v =>
      simp only [collectClassPairs, hlook]
      exact (ih _ _).trans (removeK_sublist store _)

theorem collectLeft_sublist (rcs : List (String × List String))
    (lcs : List (String × List String)) :
    ∀ (store : Store) (lck cpk : Bucket),
    List.Sublist (collectLeft lcs rcs store lck cpk).1 store := by
  induction lcs with
  | nil => intro store _ _; exact List.Sublist.refl store
  | cons hd rest ih =>
    intro store lck cpk
    obtain ⟨ln, lcont⟩ := hd
    rw [collectLeft_cons]
    refine (ih _ _ _).trans (List.Sublist.trans ?_
      (collectClassPairs_sublist ln (lcont.headD "") rcs store cpk))
    rw [sweepLeft_store]
    exact List.filter_sublist _

theorem collectRightClasses_sublist (rcs : List (String × List String)) :
    ∀ (store : Store) (rck : Bucket),
    List.Sublist (collectRightClasses rcs store rck).1 store := by
  induction rcs with
  | nil => intro store _; exact List.Sublist.refl store
  | cons hd rest ih =>
    intro store rck
    obtain ⟨rn, rcont⟩ := hd
    rw [collectRightClasses_cons]
    refine (ih _ _).trans ?_
    rw [sweepRight_store]
    exact List.filter_sublist _

/-- The classification phase never adds to the store: its result is a
sublist of the original kerning store. -/
theorem classify_store_sublist (w : Writer) :
    List.Sublist (classify w).store w.kerning :=
  (collectRightClasses_sublist w.rightClasses _ _).trans
    (collectLeft_sublist w.rightClasses w.leftClasses w.kerning [] [])

/-- Conservation across classification: with distinct store keys and
distinct class names, the four result parts together hold exactly the
entries of the original store. -/
theorem classify_conservation (w : Writer)
    (hnd : (keysOf w.kerning).Nodup)
    (hl : (w.leftClasses.map Prod.fst).Nodup)
    (hr : (w.rightClasses.map Prod.fst).Nodup) :
    (classify w).store.length + (classify w).lck.length +
      (classify w).rck.length + (classify w).cpk.length =
      w.kerning.length := by
  obtain ⟨l_sub, l_len, _, _⟩ :=
    collectLeft_spec w.rightClasses w.leftClasses w.kerning [] [] hnd hl hr
      (by simp [keysOf]) (by simp [keysOf])
  have hnd1 : (keysOf (collectLeft w.leftClasses w.rightClasses w.kerning
      [] []).1).Nodup := keysOf_nodup_sublist _ _ l_sub hnd
  obtain ⟨r_sub, r_len⟩ :=
    collectRightClasses_spec w.rightClasses
      (collectLeft w.leftClasses w.rightClasses w.kerning [] []).1 [] hnd1 hr
      (by simp [keysOf])
  have h1 : (classify w).store =
      (collectRightClasses w.rightClasses
        (collectLeft w.leftClasses w.rightClasses w.kerning [] []).1 []).1 :=
    rfl
  have h2 : (classify w).lck =
      (collectLeft w.leftClasses w.rightClasses w.kerning [] []).2.1 := rfl
  have h3 : (classify w).rck =
      (collectRightClasses w.rightClasses
        (collectLeft w.leftClasses w.rightClasses w.kerning [] []).1 []).2 :=
    rfl
  have h4 : (classify w).cpk =
      (collectLeft w.leftClasses w.rightClasses w.kerning [] []).2.2 := rfl
  rw [h1, h2, h3, h4]
  simp only [List.length_nil] at l_len r_len
  omega

theorem length_sortEntries (b : Bucket) : (sortEntries b).length = b.length :=
  List.length_insertionSort entryLe b

theorem posCount_writeKerningItems (cs : List (String × Nat)) (b : Bucket)
    (e : Bool) (rc : Nat) :
    posCount (writeKerningItems cs b e rc).1 = b.length := by
  unfold writeKerningItems
  rw [posCount_renderGo]
  exact length_sortEntries b

/-- One rule line per bucket entry: the number of rule lines written is the
total size of the four buckets. -/
theorem posCountAll_eq_buckets (w : Writer) :
    posCountAll w = (classify w).store.length + (classify w).lck.length +
      (classify w).rck.length + (classify w).cpk.length := by
  have e1 : posCount (writeParts w).items1 = (classify w).store.length :=
    posCount_writeKerningItems w.classSizes (classify w).store false 0
  have e2 : posCount (writeParts w).items2 = (classify w).lck.length :=
    posCount_writeKerningItems w.classSizes (classify w).lck true _
  have e3 : posCount (writeParts w).items3 = (classify w).rck.length :=
    posCount_writeKerningItems w.classSizes (classify w).rck true _
  have e4 : posCount (writeParts w).items4 = (classify w).cpk.length :=
    posCount_writeKerningItems w.classSizes (classify w).cpk false _
  unfold posCountAll allItems
  simp only [posCount, List.countP_append] at e1 e2 e3 e4 ⊢
  omega

/-- With distinct store keys and distinct class names, write emits exactly
one rule line per kerning pair initially in the store. -/
theorem posCountAll_eq_length (w : Writer)
    (hnd : (keysOf w.kerning).Nodup)
    (hl : (w.leftClasses.map Prod.fst).Nodup)
    (hr : (w.rightClasses.map Prod.fst).Nodup) :
    posCountAll w = w.kerning.length := by
  rw [posCountAll_eq_buckets]
  exact classify_conservation w hnd hl hr

theorem renderAll_cons (cs : List (String × Nat)) (e : Bool) (l r : String)
    (v : Int) (rest : List (Bool × ((String × String) × Int))) (rc : Nat) :
    renderAll cs ((e, ((l, r), v)) :: rest) rc =
      if rc + ruleWeight cs e l r > 2048 then
        ((Item.subtable :: Item.rule e l r v ::
           (renderAll cs rest (ruleWeight cs e l r)).1),
         (renderAll cs rest (ruleWeight cs e l r)).2)
      else
        ((Item.rule e l r v ::
           (renderAll cs rest (rc + ruleWeight cs e l r)).1),
         (renderAll cs rest (rc + ruleWeight cs e l r)).2) := rfl

/-- Rendering one bucket and continuing equals rendering the tagged
concatenation: the counter is threaded through, never reset between
buckets. -/
theorem renderGo_renderAll (cs : List (String × Nat)) (e : Bool)
    (es : Bucket) (ts : List (Bool × ((String × String) × Int))) (rc : Nat) :
    renderAll cs (es.map (fun x => (e, x)) ++ ts) rc =
      ((renderGo cs e es rc).1 ++
         (renderAll cs ts (renderGo cs e es rc).2).1,
       (renderAll cs ts (renderGo cs e es rc).2).2) := by
  induction es generalizing rc with
  | nil => simp [renderGo]
  | cons hd tl ih =>
    obtain ⟨⟨l, r⟩, v⟩ := hd
    rw [List.map_cons, List.cons_append, renderAll_cons, renderGo_cons]
    split <;> simp [ih]

/-- The items of write are exactly one combined rendering pass over the
flat rule stream, starting from counter 0. -/
theorem allItems_eq_renderAll (w : Writer) :
    allItems w = (renderAll w.classSizes (flatRules w) 0).1 ∧
    (writeParts w).finalCount = (renderAll w.classSizes (flatRules w) 0).2 := by
  unfold flatRules
  rw [renderGo_renderAll]
  rw [renderGo_renderAll]
  rw [renderGo_renderAll]
  rw [show ((sortEntries (classify w).cpk).map (fun x => ((false : Bool), x))) =
    ((sortEntries (classify w).cpk).map (fun x => ((false : Bool), x))) ++ []
    from (List.append_nil _).symm]
  rw [renderGo_renderAll]
  constructor
  · show (writeParts w).items1 ++ (writeParts w).items2 ++
      (writeParts w).items3 ++ (writeParts w).items4 = _
    simp only [renderAll, List.append_nil, List.append_assoc]
    rfl
  · simp only [renderAll]
    rfl

theorem segsGo_rule (e : Bool) (l r : String) (v : Int) (rest : List Item)
    (cur : List Item) :
    segsGo (Item.rule e l r v :: rest) cur =
      segsGo rest (cur ++ [Item.rule e l r v]) := rfl

/-- Invariant of the rendering pass: provided the open segment weighs
exactly the current counter and is within bound or a single rule, every
segment of the rendered items is within the 2048 bound or consists of a
single rule. -/
theorem segsGo_renderAll (cs : List (String × Nat))
    (ts : List (Bool × ((String × String) × Int))) :
    ∀ (rc : Nat) (cur : List Item), segWeight cs cur = rc →
    (rc ≤ 2048 ∨ cur.length = 1) →
    ∀ seg ∈ segsGo (renderAll cs ts rc).1 cur,
      segWeight cs seg ≤ 2048 ∨ seg.length = 1 := by
  induction ts with
  | nil =>
    intro rc cur hw hd seg hseg
    simp only [renderAll, segsGo, List.mem_singleton] at hseg
    subst hseg
    rcases hd with h | h
    · exact Or.inl (hw ▸ h)
    · exact Or.inr h
  | cons hd tl ih =>
    obtain ⟨e, ⟨⟨l, r⟩, v⟩⟩ := hd
    intro rc cur hw hd2 seg hseg
    rw [renderAll_cons] at hseg
    by_cases hover : rc + ruleWeight cs e l r > 2048
    · rw [if_pos hover] at hseg
      simp only [segsGo, segsGo_rule, List.nil_append] at hseg
      rcases List.mem_cons.mp hseg with h | h
      · subst h
        rcases hd2 with h2 | h2
        · exact Or.inl (hw ▸ h2)
        · exact Or.inr h2
      · refine ih (ruleWeight cs e l r) [Item.rule e l r v] ?_ (Or.inr rfl)
          seg h
        simp [segWeight, itemWeight]
    · rw [if_neg hover] at hseg
      rw [segsGo_rule] at hseg
      refine ih (rc + ruleWeight cs e l r) (cur ++ [Item.rule e l r v]) ?_
        (Or.inl (Nat.not_lt.mp hover)) seg hseg
      simp only [segWeight, List.map_append, List.sum_append, List.map_cons,
        List.map_nil, List.sum_cons, List.sum_nil, itemWeight] at hw ⊢
      omega

theorem renderItem_rule_true (l r : String) (v : Int) :
    renderItem (Item.rule true l r v) =
      "    enum pos " ++ l ++ " " ++ r ++ " " ++ toString v ++ ";" := by
  show "    " ++ "enum " ++ "pos " ++ l ++ " " ++ r ++ " " ++ toString v ++
    ";" = _
  rw [show ("    " ++ "enum " ++ "pos " : String) = "    enum pos " from by
    decide]

theorem renderItem_rule_false (l r : String) (v : Int) :
    renderItem (Item.rule false l r v) =
      "    pos " ++ l ++ " " ++ r ++ " " ++ toString v ++ ";" := by
  show "    " ++ "" ++ "pos " ++ l ++ " " ++ r ++ " " ++ toString v ++
    ";" = _
  rw [show ("    " ++ "" ++ "pos " : String) = "    pos " from by decide]

theorem storeLookup_removeK_self (s : Store) (p : String × String) :
    storeLookup (removeK s p) p = none := by
  apply storeLookup_not_mem
  intro hmem
  obtain ⟨e, he, hek⟩ := List.mem_map.mp hmem
  have hne : e.1 ≠ p := of_decide_eq_true (List.mem_filter.mp he).2
  exact hne hek

theorem storeLookup_removeK_other (s : Store) (p q : String × String)
    (hne : ¬ p = q) : storeLookup (removeK s p) q = storeLookup s q := by
  induction s with
  | nil => rfl
  | cons hd tl ih =>
    by_cases h1 : hd.1 = p
    · rw [removeK_cons_of_eq hd tl p h1]
      rw [ih]
      rw [storeLookup_cons_of_ne hd tl q (by rw [h1]; exact hne)]
    · rw [removeK_cons_of_ne hd tl p h1]
      by_cases h2 : hd.1 = q
      · simp [storeLookup, List.find?, h2]
      · rw [storeLookup_cons_of_ne _ _ q h2,
          storeLookup_cons_of_ne hd tl q h2]
        exact ih

theorem bigWriter_eq : bigWriter = Writer.mk [(("k", "g"), 5)]
    [("@_A_L", bigContents)] [] [("@_A_L", 2049)] := by
  have hlen : bigContents.length = 2049 := by
    show ("k" :: List.replicate 2048 "x").length = 2049
    rw [List.length_cons, List.length_replicate]
  have h1 : strStarts "@_A_L" "@_" = true := by decide
  have h2 : strEnds "@_A_L" "_L" = true := by decide
  simp [bigWriter, classDefinition, h1, h2, dupd, hlen]

/-- Claim C1, counterexample: with the left class name registered twice
(once with key k1, once with key k2), both pairs (k1,r) and (k2,r) are
present with values before write(), yet write() emits only one rule line
in total; the pair (k1,r) is classified and removed after a present (not
absent) lookup but its bucket entry is overwritten, so it is represented
by no line, refuting the claim as stated over all stores and
registries. -/
theorem c1_counterexample :
    dupNameWriter.kerning.length = 2 ∧
    storeLookup dupNameWriter.kerning ("k1", "r") = some 1 ∧
    storeLookup dupNameWriter.kerning ("k2", "r") = some 2 ∧
    posCountAll dupNameWriter = 1 := by decide

/-- Claim C1, amended: provided the store keys are pairwise distinct and
no class name is registered twice on the same side, every pair present in
the store before write() is represented by exactly one emitted rule line
(and none is dropped or emitted twice): the number of emitted rule lines
equals the number of pairs. -/
theorem c1_pair_conservation (w : Writer)
    (hnd : (keysOf w.kerning).Nodup)
    (hl : (w.leftClasses.map Prod.fst).Nodup)
    (hr : (w.rightClasses.map Prod.fst).Nodup) :
    posCountAll w = w.kerning.length :=
  posCountAll_eq_length w hnd hl hr

/-- Witness for C1 at a concrete writer with two pairs. -/
theorem c1_pair_conservation_witness : posCountAll wBasic = 2 :=
  c1_pair_conservation wBasic (by decide) (by decide) (by decide)

/-- Claim C2, counterexample: the class-pair bucket is rendered by a call
passing no enum flag, so a class-class rule is emitted without the
"enum " marker, refuting the claim that every class-involving bucket rule
carries it. -/
theorem c2_counterexample :
    (writeParts classPairWriter).items4 =
      [Item.rule false "@_A_L" "@_B_R" 10] ∧
    (writeParts classPairWriter).items4.all (flagOK true) = false ∧
    (writeParts classPairWriter).items4.map renderItem =
      ["    pos @_A_L @_B_R 10;"] := by decide

/-- Claim C2, amended: rules rendered from the left-class and right-class
buckets carry the "enum " marker; rules from the glyph-glyph bucket AND
from the class-class bucket carry no marker. -/
theorem c2_enum_markers (w : Writer) :
    (∀ it ∈ (writeParts w).items2 ++ (writeParts w).items3,
      it = Item.subtable ∨ ∃ l r v, it = Item.rule true l r v ∧
        renderItem it =
          "    enum pos " ++ l ++ " " ++ r ++ " " ++ toString v ++ ";") ∧
    (∀ it ∈ (writeParts w).items1 ++ (writeParts w).items4,
      it = Item.subtable ∨ ∃ l r v, it = Item.rule false l r v ∧
        renderItem it =
          "    pos " ++ l ++ " " ++ r ++ " " ++ toString v ++ ";") := by
  constructor
  · intro it hit
    have h : it = Item.subtable ∨ ∃ l r v, it = Item.rule true l r v := by
      rcases List.mem_append.mp hit with h | h
      · exact mem_renderGo w.classSizes true _ _ it h
      · exact mem_renderGo w.classSizes true _ _ it h
    rcases h with h | ⟨l, r, v, h⟩
    · exact Or.inl h
    · exact Or.inr ⟨l, r, v, h, h ▸ renderItem_rule_true l r v⟩
  · intro it hit
    have h : it = Item.subtable ∨ ∃ l r v, it = Item.rule false l r v := by
      rcases List.mem_append.mp hit with h | h
      · exact mem_renderGo w.classSizes false _ _ it h
      · exact mem_renderGo w.classSizes false _ _ it h
    rcases h with h | ⟨l, r, v, h⟩
    · exact Or.inl h
    · exact Or.inr ⟨l, r, v, h, h ▸ renderItem_rule_false l r v⟩

/-- Witness for C2 at a concrete left-class rule. -/
theorem c2_enum_markers_witness :
    Item.rule true "@_A_L" "g" 5 = Item.subtable ∨ ∃ l r v,
      Item.rule true "@_A_L" "g" 5 = Item.rule true l r v ∧
      renderItem (Item.rule true "@_A_L" "g" 5) =
        "    enum pos " ++ l ++ " " ++ r ++ " " ++ toString v ++ ";" :=
  (c2_enum_markers leftClassWriter).1 _ (by decide)

/-- Claim C3, counterexample: with two registered classes of fifty members
each and a preceding glyph-glyph rule (counter 1 > 0), the class-class
rule adds weight 1, not 2500: no subtable boundary is forced and the
counter ends at 2, not 2500. -/
theorem c3_counterexample :
    classSize fiftyWriter.classSizes "@_A_L" = 50 ∧
    classSize fiftyWriter.classSizes "@_B_R" = 50 ∧
    allItems fiftyWriter =
      [Item.rule false "g" "h" 1, Item.rule false "@_A_L" "@_B_R" 2] ∧
    (writeParts fiftyWriter).finalCount = 2 := by decide

/-- Claim C3, amended: the class-class bucket is rendered without the enum
flag (writeParts passes false for it), so each of its rules adds exactly
weight 1 to the running counter, whatever the registered class sizes; no
boundary is forced while the counter stays within 2048. -/
theorem c3_classpair_weight (cs : List (String × Nat)) (b : Bucket)
    (rc : Nat) (h : rc + b.length ≤ 2048) :
    (renderGo cs false b rc).2 = rc + b.length ∧
    (renderGo cs false b rc).1 =
      b.map (fun x => Item.rule false x.1.1 x.1.2 x.2) := by
  induction b generalizing rc with
  | nil => simp [renderGo]
  | cons hd tl ih =>
    obtain ⟨⟨l, r⟩, v⟩ := hd
    rw [renderGo_cons]
    have hw : ruleWeight cs false l r = 1 := rfl
    rw [hw]
    have hlen : rc + 1 + tl.length ≤ 2048 := by
      simp only [List.length_cons] at h
      omega
    rw [if_neg (by omega)]
    obtain ⟨ih1, ih2⟩ := ih (rc + 1) hlen
    refine ⟨?_, ?_⟩
    · rw [ih1]
      simp only [List.length_cons]
      omega
    · rw [ih2]
      simp

/-- Witness for C3 at a 50-by-50 class pair entry with counter 1. -/
theorem c3_classpair_weight_witness :
    (renderGo [("@_A_L", 50), ("@_B_R", 50)] false
      [(("@_A_L", "@_B_R"), 2)] 1).2 = 2 ∧
    (renderGo [("@_A_L", 50), ("@_B_R", 50)] false
      [(("@_A_L", "@_B_R"), 2)] 1).1 =
      [Item.rule false "@_A_L" "@_B_R" 2] :=
  c3_classpair_weight [("@_A_L", 50), ("@_B_R", 50)]
    [(("@_A_L", "@_B_R"), 2)] 1 (by decide)

/-- Claim C4: the items of write are exactly one combined rendering pass
over the rules of all four buckets in output order, threading one counter
from 0 with no reset between buckets, where each rule first adds its
weight and a boundary is emitted (and the counter reset to that weight)
exactly when the counter exceeds 2048 (renderAll states this spec
wording). -/
theorem c4_shared_counter (w : Writer) :
    allItems w = (renderAll w.classSizes (flatRules w) 0).1 ∧
    (writeParts w).finalCount =
      (renderAll w.classSizes (flatRules w) 0).2 :=
  allItems_eq_renderAll w

/-- Claim C5, counterexample: a single left-class rule of weight 2049
(2049-member class times a plain glyph) occupies a segment whose total
weight 2049 exceeds 2048, refuting the claim that segment totals never
exceed 2048. -/
theorem c5_counterexample :
    (segments (allItems bigWriter)).map (segWeight bigWriter.classSizes) =
      [0, 2049] ∧
    allItems bigWriter = [Item.subtable, Item.rule true "@_A_L" "g" 5] := by
  rw [bigWriter_eq]
  decide

/-- Claim C5, amended: between two consecutive subtable boundaries (or
start/end of output) the total rule weight never exceeds 2048, except
that a single rule whose own weight already exceeds 2048 sits alone in
its segment. -/
theorem c5_segment_bound (w : Writer) (seg : List Item)
    (h : seg ∈ segments (allItems w)) :
    segWeight w.classSizes seg ≤ 2048 ∨ seg.length = 1 := by
  rw [(allItems_eq_renderAll w).1] at h
  exact segsGo_renderAll w.classSizes (flatRules w) 0 [] rfl
    (Or.inl (by omega)) seg h

/-- Witness for C5 at a one-pair writer. -/
theorem c5_segment_bound_witness :
    segWeight (Writer.mk [(("a", "b"), 3)] [] [] []).classSizes
      [Item.rule false "a" "b" 3] ≤ 2048 ∨
    ([Item.rule false "a" "b" 3] : List Item).length = 1 :=
  c5_segment_bound (Writer.mk [(("a", "b"), 3)] [] [] []) _ (by decide)

/-- Claim C6: the output of write is always the feature header, the four
buckets rendered in the fixed order glyph-glyph, left-class, right-class,
class-class, then the footer, joined by the line separator; and within
each bucket the rule lines are exactly its entries in sorted
(lexicographic on the pair key) order. -/
theorem c6_order_sorted (w : Writer) (ls : String) :
    write w ls = String.intercalate ls
      ["feature kern \x7b",
       String.intercalate ls ((writeParts w).items1.map renderItem),
       String.intercalate ls ((writeParts w).items2.map renderItem),
       String.intercalate ls ((writeParts w).items3.map renderItem),
       String.intercalate ls ((writeParts w).items4.map renderItem),
       "\x7d kern;"] ∧
    rulesOf (writeParts w).items1 = (sortEntries (classify w).store).map
      (fun x => Item.rule false x.1.1 x.1.2 x.2) ∧
    rulesOf (writeParts w).items2 = (sortEntries (classify w).lck).map
      (fun x => Item.rule true x.1.1 x.1.2 x.2) ∧
    rulesOf (writeParts w).items3 = (sortEntries (classify w).rck).map
      (fun x => Item.rule true x.1.1 x.1.2 x.2) ∧
    rulesOf (writeParts w).items4 = (sortEntries (classify w).cpk).map
      (fun x => Item.rule false x.1.1 x.1.2 x.2) ∧
    List.Sorted entryLe (sortEntries (classify w).store) ∧
    List.Sorted entryLe (sortEntries (classify w).lck) ∧
    List.Sorted entryLe (sortEntries (classify w).rck) ∧
    List.Sorted entryLe (sortEntries (classify w).cpk) := by
  refine ⟨rfl, ?_, ?_, ?_, ?_, ?_, ?_, ?_, ?_⟩
  · exact rulesOf_renderGo w.classSizes false (sortEntries (classify w).store) 0
  · exact rulesOf_renderGo w.classSizes true (sortEntries (classify w).lck) _
  · exact rulesOf_renderGo w.classSizes true (sortEntries (classify w).rck) _
  · exact rulesOf_renderGo w.classSizes false (sortEntries (classify w).cpk) _
  · exact List.sorted_insertionSort entryLe _
  · exact List.sorted_insertionSort entryLe _
  · exact List.sorted_insertionSort entryLe _
  · exact List.sorted_insertionSort entryLe _

/-- Claim C7: classDefinition ignores names without the marker prefix
entirely (no size entry); a retained name ending in the left suffix is
appended to the left-class list, one ending in the right suffix (but not
the left) to the right-class list, one matching neither suffix to no
list; in all retained cases size[name] = len(contents) is recorded. -/
theorem c7_classDefinition_cases (w : Writer) (name : String)
    (contents : List String) :
    (strStarts name "@_" = false → classDefinition w name contents = w) ∧
    (strStarts name "@_" = true → strEnds name "_L" = true →
      classDefinition w name contents = Writer.mk w.kerning
        (w.leftClasses ++ [(name, contents)]) w.rightClasses
        (dupd w.classSizes name contents.length)) ∧
    (strStarts name "@_" = true → strEnds name "_L" = false →
      strEnds name "_R" = true →
      classDefinition w name contents = Writer.mk w.kerning w.leftClasses
        (w.rightClasses ++ [(name, contents)])
        (dupd w.classSizes name contents.length)) ∧
    (strStarts name "@_" = true → strEnds name "_L" = false →
      strEnds name "_R" = false →
      classDefinition w name contents = Writer.mk w.kerning w.leftClasses
        w.rightClasses (dupd w.classSizes name contents.length)) := by
  refine ⟨?_, ?_, ?_, ?_⟩
  · intro h1
    simp [classDefinition, h1]
  · intro h1 h2
    simp [classDefinition, h1, h2]
  · intro h1 h2 h3
    simp [classDefinition, h1, h2, h3]
  · intro h1 h2 h3
    simp [classDefinition, h1, h2, h3]

/-- Witness for C7: an unmarked name is ignored, a left-suffixed one is
appended on the left. -/
theorem c7_classDefinition_cases_witness :
    classDefinition emptyWriter "plain" ["a"] = emptyWriter :=
  (c7_classDefinition_cases emptyWriter "plain" ["a"]).1 (by decide)

/-- Claim C8: in classification step 1a, a present lookup records the pair
under the class-pair bucket and removes exactly that pair from the store
(other pairs keep their lookup results), an absent lookup skips the pair
without recording or removal, and both paths are total (no error). -/
theorem c8_classpair_lookup (leftName leftKey rightName : String)
    (rightContents : List String) (rest : List (String × List String))
    (store : Store) (cpk : Bucket) :
    (storeLookup store (leftKey, rightContents.headD "") = none →
      collectClassPairs leftName leftKey
        ((rightName, rightContents) :: rest) store cpk =
        collectClassPairs leftName leftKey rest store cpk) ∧
    (∀ v, storeLookup store (leftKey, rightContents.headD "") = some v →
      collectClassPairs leftName leftKey
        ((rightName, rightContents) :: rest) store cpk =
        collectClassPairs leftName leftKey rest
          (removeK store (leftKey, rightContents.headD ""))
          (dupd cpk (leftName, rightName) v)) ∧
    (∀ p, storeLookup (removeK store p) p = none) ∧
    (∀ p q, ¬ p = q →
      storeLookup (removeK store p) q = storeLookup store q) := by
  refine ⟨?_, ?_, ?_, ?_⟩
  · intro h
    simp only [collectClassPairs, h]
  · intro v h
    simp only [collectClassPairs, h]
  · intro p
    exact storeLookup_removeK_self store p
  · intro p q hne
    exact storeLookup_removeK_other store p q hne

/-- Witness for C8 at a concrete store. -/
theorem c8_classpair_lookup_witness :
    collectClassPairs "@_A_L" "k" (("@_B_R", ["r"]) :: [])
      [(("k", "r"), 5)] [] =
      collectClassPairs "@_A_L" "k" []
        (removeK [(("k", "r"), 5)] ("k", "r"))
        (dupd [] ("@_A_L", "@_B_R") 5) :=
  (c8_classpair_lookup "@_A_L" "k" "@_B_R" ["r"] [] [(("k", "r"), 5)]
    []).2.1 5 (by decide)

/-- Claim C9, counterexample: for a store with no class-matching pairs
(here the empty writer) the first write consumes nothing, and a second
write yields exactly the same result, refuting "for every store and
registry" the second call differs. -/
theorem c9_counterexample :
    writeWriter emptyWriter = emptyWriter ∧
    write (writeWriter emptyWriter) "\n" = write emptyWriter "\n" ∧
    allItems (writeWriter emptyWriter) = allItems emptyWriter := by decide

/-- Claim C9, amended: write is indeed not idempotent whenever the first
call consumed at least one pair: under distinct store keys and class
names, a second write() on the mutated store emits strictly fewer rule
lines than the first (the consumed pairs are gone), by design. -/
theorem c9_not_idempotent (w : Writer)
    (hnd : (keysOf w.kerning).Nodup)
    (hl : (w.leftClasses.map Prod.fst).Nodup)
    (hr : (w.rightClasses.map Prod.fst).Nodup)
    (hshrink : (classify w).store.length < w.kerning.length) :
    posCountAll (writeWriter w) < posCountAll w := by
  have h1 : posCountAll w = w.kerning.length :=
    posCountAll_eq_length w hnd hl hr
  have hnd2 : (keysOf (writeWriter w).kerning).Nodup :=
    keysOf_nodup_sublist _ _ (classify_store_sublist w) hnd
  have h2 : posCountAll (writeWriter w) = (classify w).store.length :=
    posCountAll_eq_length (writeWriter w) hnd2 hl hr
  omega

/-- Witness for C9 at a writer whose class-pair lookup consumes a pair. -/
theorem c9_not_idempotent_witness :
    posCountAll (writeWriter wBasic) < posCountAll wBasic :=
  c9_not_idempotent wBasic (by decide) (by decide) (by decide) (by decide)

/-- Claim C10: after write() the store is exactly what classification left
(a sublist of the original store: entries are only ever removed, by the
class sweeps and class-pair hits), and the glyph-glyph bucket renders
exactly those remaining entries (a permutation of the final store, in
sorted order); the classes and sizes are untouched. -/
theorem c10_store_frame (w : Writer) :
    (writeWriter w).kerning = (classify w).store ∧
    (writeWriter w).leftClasses = w.leftClasses ∧
    (writeWriter w).rightClasses = w.rightClasses ∧
    (writeWriter w).classSizes = w.classSizes ∧
    List.Sublist (classify w).store w.kerning ∧
    rulesOf (writeParts w).items1 = (sortEntries (classify w).store).map
      (fun x => Item.rule false x.1.1 x.1.2 x.2) ∧
    List.Perm (sortEntries (classify w).store) (classify w).store := by
  refine ⟨rfl, rfl, rfl, rfl, classify_store_sublist w, ?_,
    List.perm_insertionSort entryLe _⟩
  exact rulesOf_renderGo w.classSizes false (sortEntries (classify w).store) 0

end Roboto
